import Mathlib

/-!
Verification of the spot-edit field/position tracking and substitution
engine against its specification.

The definitions below are a shallow embedding of the Python source:

* `SpotEdit.Field`, `SpotEdit.FieldUpdate` embed the pydantic models of
  `src/backend/src/models/schema.py` (fields irrelevant to the verified
  claims — `id`, `type`, `metadata` — are inert data and omitted).
* `SpotEdit.validatePositions` embeds `Field.validate_positions`
  (schema.py lines 84-95).
* `SpotEdit.fuzzyMatchField` embeds `FieldUpdater._fuzzy_match_field`
  (field_updater.py lines 305-332).
* `SpotEdit.applyUpdates` embeds `FieldUpdater.apply_updates`
  (field_updater.py lines 114-165).
* `SpotEdit.parseLlmFields` / `SpotEdit.createFieldFromDict` embed
  `FieldDetector._parse_llm_response` / `_create_field_from_dict`
  (field_detector.py lines 135-271), working on an already-parsed JSON
  value (the JSON text parser itself is an external concern).

Document text is represented as `List Char`; Python slicing
`text[:start] + new + text[end:]` becomes
`t.take start ++ new ++ t.drop end`, which agrees with Python for
non-negative indices (both clamp out-of-range indices).
-/

namespace SpotEdit

/-- A replacement of the slice `[s, e)` of the document by the text `v`.
Embeds the `(start, end, new_value)` tuples collected by
`FieldUpdater.apply_updates`. -/
structure Repl where
  s : Nat
  e : Nat
  v : List Char
deriving DecidableEq

/-- Embeds the pydantic `Field` model (schema.py): a named field with the
character ranges it occupies and its current value.  Positions are pairs
of naturals: the pydantic validator rejects negative indices at
construction.  The inert `id`, `type` and `metadata` attributes are
omitted. -/
structure Field where
  name : List Char
  positions : List (Nat × Nat)
  current_value : Option (List Char)
deriving DecidableEq

/-- Embeds the pydantic `FieldUpdate` model (schema.py): one parsed
update, a field reference and the replacement value.  The inert
`confidence` attribute is omitted. -/
structure FieldUpdate where
  field_name : List Char
  new_value : List Char
deriving DecidableEq

/-- Embeds `FieldUpdateError` raised by `FieldUpdater.apply_updates`
(field_updater.py line 151), whose message is the text
`Field not found:` followed by the offending reference. -/
inductive UpdateError where
  | fieldNotFound (name : List Char)
deriving DecidableEq

/-- Python `text[start:end]` for `0 ≤ start` and `0 ≤ end`. -/
def pySlice (t : List Char) (s e : Nat) : List Char :=
  (t.drop s).take (e - s)

/-- Python `text[:start] + new_value + text[end:]`, the elementary splice
of `FieldUpdater.apply_updates` (field_updater.py line 163). -/
def pySplice (t : List Char) (r : Repl) : List Char :=
  t.take r.s ++ r.v ++ t.drop r.e

/-- The cumulative application loop of `FieldUpdater.apply_updates`
(field_updater.py lines 161-163). -/
def applyRepls (t : List Char) (rs : List Repl) : List Char :=
  rs.foldl pySplice t

/-- Stable descending insertion: `r` is placed before the first element
whose start is strictly smaller, so elements with equal start keep their
original relative order — the semantics of Python's stable
`list.sort(key=lambda x: x[0], reverse=True)`. -/
def insertDesc (r : Repl) : List Repl → List Repl
  | [] => [r]
  | x :: xs => if x.s ≤ r.s then r :: x :: xs else x :: insertDesc r xs

/-- Embeds `replacements.sort(key=lambda x: x[0], reverse=True)`
(field_updater.py line 158): stable sort by start, descending. -/
def sortDesc : List Repl → List Repl
  | [] => []
  | x :: xs => insertDesc x (sortDesc xs)

/-- Embeds `field.name.lower()` applied to stored names: Python
`str.lower` restricted to the characters of field names. -/
def lowerName (s : List Char) : List Char :=
  s.map Char.toLower

/-- Embeds the reference normalization of `_fuzzy_match_field`
(field_updater.py line 320):
`field_name.lower().replace(" ", "_").replace("-", "_")`. -/
def normalizeRef (s : List Char) : List Char :=
  ((s.map Char.toLower).map (fun c => if c = ' ' then '_' else c)).map
    (fun c => if c = '-' then '_' else c)

/-- Contiguous-substring test, the semantics of Python's `a in b` on
strings (the empty string is a substring of everything). -/
def isSubstrOf (needle hay : List Char) : Bool :=
  match needle, hay with
  | [], _ => true
  | _ :: _, [] => false
  | _, _ :: t => needle.isPrefixOf hay || isSubstrOf needle t

/-- Embeds `FieldUpdater._fuzzy_match_field` (field_updater.py lines
305-332): normalize the reference, then a first pass looking for exact
equality with a lower-cased field name, then a second pass looking for a
substring relation in either direction. -/
def fuzzyMatchField (field_name : List Char) (existingFields : List Field) :
    Option Field :=
  let n := normalizeRef field_name
  match existingFields.find? (fun f => lowerName f.name == n) with
  | some f => some f
  | none =>
      existingFields.find? (fun f =>
        isSubstrOf n (lowerName f.name) || isSubstrOf (lowerName f.name) n)

/-- Embeds `field_map.get(update.field_name)` where `field_map` is the
dict comprehension keyed by field name over `existing_fields`
(field_updater.py lines 138, 144): a Python dict comprehension keeps the
last field registered under a name, hence the search over the reversed
list. -/
def fieldMapGet (fields : List Field) (name : List Char) : Option Field :=
  fields.reverse.find? (fun f => f.name == name)

/-- The resolution step of `FieldUpdater.apply_updates` (field_updater.py
lines 144-148): exact dictionary lookup first, fuzzy matching as the
fallback. -/
def resolveField (name : List Char) (fields : List Field) : Option Field :=
  match fieldMapGet fields name with
  | some f => some f
  | none => fuzzyMatchField name fields

/-- The collection loop of `FieldUpdater.apply_updates` (field_updater.py
lines 141-155): resolve each update in order, raising `FieldUpdateError`
at the first unresolvable reference, and expand each resolved field into
one replacement per position, all positions of a field receiving the
update's `new_value`. -/
def collectRepls (updates : List FieldUpdate) (fields : List Field) :
    Except UpdateError (List Repl) :=
  match updates with
  | [] => .ok []
  | u :: rest =>
      match resolveField u.field_name fields with
      | none => .error (.fieldNotFound u.field_name)
      | some f => do
          let rs ← collectRepls rest fields
          .ok (f.positions.map (fun p => ⟨p.1, p.2, u.new_value⟩) ++ rs)

/-- Embeds `FieldUpdater.apply_updates` (field_updater.py lines 114-165):
empty batches are returned unchanged; otherwise every update is resolved
(raising `FieldUpdateError` if any reference resolves to no field),
expanded into per-range replacements, sorted by start descending, and
spliced into the text cumulatively.  The function is pure: on error the
caller's text and field list are untouched. -/
def applyUpdates (text : List Char) (updates : List FieldUpdate)
    (fields : List Field) : Except UpdateError (List Char) :=
  if updates.isEmpty then .ok text
  else do
    let rs ← collectRepls updates fields
    .ok (applyRepls text (sortDesc rs))

/-- The elementary replacements of an update batch: each update expanded
into one replacement per position of its resolved field, every position
of a field receiving that update's `new_value` (field_updater.py lines
153-155).  An unresolvable update contributes nothing; the claims using
this definition assume every update resolves. -/
def elementaryRepls (updates : List FieldUpdate) (fields : List Field) :
    List Repl :=
  match updates with
  | [] => []
  | u :: rest =>
      (match resolveField u.field_name fields with
       | some f => f.positions.map (fun p => ⟨p.1, p.2, u.new_value⟩)
       | none => []) ++ elementaryRepls rest fields

/-- The Name Resolver as the specification words it: normalize the
reference by lower-casing it and replacing spaces and hyphens with
underscores, then return the first field whose lower-cased name equals
the normalized reference, and only if none does, the first field related
to it by substring containment in either direction. -/
def resolveReferenceSpec (reference : List Char) (fields : List Field) :
    Option Field :=
  let n := (reference.map Char.toLower).map
    (fun c => if c = ' ' ∨ c = '-' then '_' else c)
  match fields.find? (fun f => lowerName f.name == n) with
  | some f => some f
  | none =>
      fields.find? (fun f =>
        isSubstrOf n (lowerName f.name) || isSubstrOf (lowerName f.name) n)

/-- Embeds the `ValueError`s raised by `Field.validate_positions`
(schema.py lines 84-95). -/
inductive RangeError where
  | negativeIndex
  | startNotBeforeEnd
deriving DecidableEq

/-- The loop of `Field.validate_positions` (schema.py lines 87-94):
positions are Python ints, each checked for non-negativity and
`start < end`, raising at the first violation. -/
def checkPositions : List (Int × Int) → Except RangeError Unit
  | [] => .ok ()
  | (s, e) :: rest =>
      if s < 0 ∨ e < 0 then .error .negativeIndex
      else if s ≥ e then .error .startNotBeforeEnd
      else checkPositions rest

/-- Embeds `Field.validate_positions` (schema.py lines 84-95): the
validator inspects each `(start, end)` pair and returns the position list
unchanged when every pair passes. -/
def validatePositions (v : List (Int × Int)) :
    Except RangeError (List (Int × Int)) :=
  (checkPositions v).map (fun _ => v)

/-- Ingestion of a whole field set: pydantic validates each `Field` of
`Template(fields=[...])` independently through `validate_positions`, so a
field set is accepted exactly when every member's position list
validates.  No other ingestion-time check exists in the source. -/
def templateFieldsAccepted (positionLists : List (List (Int × Int))) : Bool :=
  positionLists.all (fun ps => (validatePositions ps).isOk)

/-- Modelled from the spec: the range recomputation of the module-level
`apply_updates` imported by `src/backend/src/services/__init__.py` and
called by `src/backend/src/api/routes.py` with result
`(updated_text, updated_fields)` — its body is absent from the sources;
spec §4.2 steps 5-6 define it: an updated field's every old range
`(start, end)` becomes `(start, start + len(new_value))` and its value
becomes the new value (the last update resolving to the field wins, as a
name-keyed dict assignment would), while fields not resolved from the
batch are kept verbatim. -/
def recomputeField (updates : List FieldUpdate) (fields : List Field)
    (f : Field) : Field :=
  match updates.reverse.find?
      (fun u => decide (resolveField u.field_name fields = some f)) with
  | some u =>
      { f with
        positions := f.positions.map (fun p => (p.1, p.1 + u.new_value.length))
        current_value := some u.new_value }
  | none => f

/-- Modelled from the spec: the module-level `apply_updates` of the
update pipeline (absent from the sources; only its import in
`services/__init__.py` and its caller in `routes.py` remain), which
returns the spliced text of `FieldUpdater.apply_updates` together with
the field set recomputed per spec §4.2 steps 5-6. -/
def applyUpdatesFull (text : List Char) (updates : List FieldUpdate)
    (fields : List Field) : Except UpdateError (List Char × List Field) := do
  let t ← applyUpdates text updates fields
  .ok (t, fields.map (recomputeField updates fields))

/-- A parsed JSON value, the shape `json.loads` delivers to
`FieldDetector._parse_llm_response`.  `fnum` stands for a non-integer
JSON number; its value is irrelevant because the integer check rejects
it.  Python's conflation of `bool` with `int` is not modelled: booleans
are never valid position indices here. -/
inductive Json where
  | null
  | bool (b : Bool)
  | num (n : Int)
  | fnum
  | str (s : List Char)
  | arr (xs : List Json)
  | obj (kvs : List (List Char × Json))

/-- Python dict lookup `data.get(key)` on a parsed JSON object. -/
def jsonGet (kvs : List (List Char × Json)) (k : List Char) : Option Json :=
  (kvs.find? (fun kv => kv.1 == k)).map (fun kv => kv.2)

/-- Whether `Json.arr` built the value. -/
def Json.isArr : Json → Bool
  | .arr _ => true
  | _ => false

/-- Embeds the type check of `_create_field_from_dict`
(field_detector.py lines 233-234):
`field_type not in ["text", "date", "number"]`. -/
def validFieldType (t : Json) : Bool :=
  match t with
  | .str s =>
      s == "text".toList || s == "date".toList || s == "number".toList
  | _ => false

/-- Embeds one iteration of the position-validation loop of
`_create_field_from_dict` (field_detector.py lines 240-260): the entry
must be a two-element list of integers with `0 ≤ start`, `0 ≤ end`,
`start < end` and `end ≤ len(document_text)`; anything else is skipped
with a warning. -/
def validatePosEntry (docLen : Nat) (pos : Json) : Option (Nat × Nat) :=
  match pos with
  | .arr [.num a, .num b] =>
      if a < 0 ∨ b < 0 ∨ a ≥ b then none
      else if b > (docLen : Int) then none
      else some (a.toNat, b.toNat)
  | _ => none

/-- Embeds `FieldDetector._create_field_from_dict` (field_detector.py
lines 201-271): reject entries missing `name`, `type` or `positions`,
reject invalid types, keep only valid positions, reject entries with no
valid position, and build the `Field` (whose pydantic construction
rejects a non-string `name` or `current_value`). -/
def createFieldFromDict (kvs : List (List Char × Json)) (docLen : Nat) :
    Except String Field :=
  match jsonGet kvs "name".toList with
  | none => .error "Field missing name"
  | some nameJ =>
  match jsonGet kvs "type".toList with
  | none => .error "Field missing type"
  | some typeJ =>
  match jsonGet kvs "positions".toList with
  | none => .error "Field missing positions"
  | some posJ =>
  if ¬ validFieldType typeJ then .error "Invalid field type"
  else
    match posJ with
    | .arr posList =>
        if (posList.filterMap (validatePosEntry docLen)).isEmpty then
          .error "No valid positions found for field"
        else
          match nameJ with
          | .str nm =>
              match jsonGet kvs "current_value".toList with
              | none => .ok ⟨nm, posList.filterMap (validatePosEntry docLen), none⟩
              | some .null =>
                  .ok ⟨nm, posList.filterMap (validatePosEntry docLen), none⟩
              | some (.str cv) =>
                  .ok ⟨nm, posList.filterMap (validatePosEntry docLen), some cv⟩
              | some _ => .error "current_value is not a string"
          | _ => .error "name is not a string"
    | _ => .error "positions is not a list of positions"

/-- Embeds `FieldDetector._parse_llm_response` (field_detector.py lines
135-176) on an already-parsed JSON value: raise iff the value is not an
array; inside an array, convert each entry via `createFieldFromDict`,
skipping (with a warning, not a failure) every entry whose conversion
raises — including entries that are not objects at all. -/
def parseLlmFields (v : Json) (docLen : Nat) : Except String (List Field) :=
  match v with
  | .arr items =>
      .ok (items.filterMap (fun item =>
        match item with
        | .obj kvs => (createFieldFromDict kvs docLen).toOption
        | _ => none))
  | _ => .error "LLM response is not a JSON array"

/-- Example document `"aa XX bb XX cc"` used to instantiate the theorems
on concrete inputs. -/
def exDoc : List Char := "aa XX bb XX cc".toList

/-- Example field occupying both `XX` occurrences of `exDoc`. -/
def exField : Field := ⟨"f".toList, [(3, 5), (9, 11)], some "XX".toList⟩

/-- Example document for the unresolved-reference scenario. -/
def scenarioDoc : List Char := "Hello John".toList

/-- Field registered for the unresolved-reference scenario. -/
def scenarioField : Field :=
  ⟨"client_name".toList, [(6, 10)], some "John".toList⟩

/-- The two-proposal batch of the unresolved-reference scenario: one
resolvable update and one referencing `totally_unknown_field`, which no
exact or fuzzy rule matches against `scenarioField`. -/
def scenarioBatch : List FieldUpdate :=
  [⟨"client_name".toList, "Jane".toList⟩,
   ⟨"totally_unknown_field".toList, "X".toList⟩]

/-- Example JSON detection response: a non-object entry, a valid field
entry carrying one valid and one invalid position, and an invalid field
entry missing its type and positions. -/
def exDetection : Json := .arr [
  .str "junk".toList,
  .obj [("name".toList, .str "client_name".toList),
        ("type".toList, .str "text".toList),
        ("positions".toList,
          .arr [.arr [.num 3, .num 7], .arr [.num 5, .num 2]]),
        ("current_value".toList, .str "John".toList)],
  .obj [("name".toList, .str "bad".toList)]]

/-- The field list `parseLlmFields` extracts from `exDetection`. -/
def exParsed : List Field :=
  [⟨"client_name".toList, [(3, 7)], some "John".toList⟩]

/-- Well-formedness of a replacement list relative to a text length `n`:
each replacement's range is ordered and fits inside the bound, and every
later replacement lies entirely left of the current start — the shape a
descending-sorted batch of disjoint in-bounds ranges has, and the shape
that keeps every splice in bounds as the text shrinks or grows. -/
inductive ValidRepls : Nat → List Repl → Prop
  | nil (n : Nat) : ValidRepls n []
  | cons {n : Nat} {r : Repl} {rs : List Repl} (h1 : r.s ≤ r.e)
      (h2 : r.e ≤ n) (h3 : ValidRepls r.s rs) : ValidRepls n (r :: rs)

theorem insertDesc_perm (r : Repl) (l : List Repl) :
    List.Perm (insertDesc r l) (r :: l) := by
  induction l with
  | nil => simp [insertDesc]
  | cons x xs ih =>
      by_cases h : x.s ≤ r.s
      · simp [insertDesc, h]
      · simp only [insertDesc, if_neg h]
        exact (ih.cons x).trans (List.Perm.swap r x xs)

theorem sortDesc_perm (l : List Repl) : List.Perm (sortDesc l) l := by
  induction l with
  | nil => simp [sortDesc]
  | cons x xs ih => exact (insertDesc_perm x (sortDesc xs)).trans (ih.cons x)

theorem mem_sortDesc {a : Repl} {l : List Repl} : a ∈ sortDesc l ↔ a ∈ l :=
  (sortDesc_perm l).mem_iff

theorem insertDesc_sorted (r : Repl) (l : List Repl)
    (h : l.Pairwise (fun a b => b.s ≤ a.s)) :
    (insertDesc r l).Pairwise (fun a b => b.s ≤ a.s) := by
  induction l with
  | nil => simp [insertDesc]
  | cons x xs ih =>
      rw [List.pairwise_cons] at h
      obtain ⟨hx, hxs⟩ := h
      by_cases hc : x.s ≤ r.s
      · rw [insertDesc, if_pos hc, List.pairwise_cons]
        refine ⟨?_, ?_⟩
        · intro y hy
          rcases List.mem_cons.mp hy with rfl | hy'
          · exact hc
          · exact le_trans (hx y hy') hc
        · rw [List.pairwise_cons]
          exact ⟨hx, hxs⟩
      · rw [insertDesc, if_neg hc, List.pairwise_cons]
        refine ⟨?_, ih hxs⟩
        intro y hy
        rcases List.mem_cons.mp ((insertDesc_perm r xs).mem_iff.mp hy) with
          rfl | hy'
        · omega
        · exact hx y hy'

theorem sortDesc_sorted (l : List Repl) :
    (sortDesc l).Pairwise (fun a b => b.s ≤ a.s) := by
  induction l with
  | nil => simp [sortDesc]
  | cons x xs ih => exact insertDesc_sorted x _ ih

theorem ValidRepls.mono {n m : Nat} {rs : List Repl} (h : ValidRepls n rs)
    (hnm : n ≤ m) : ValidRepls m rs := by
  cases h with
  | nil => exact .nil m
  | cons h1 h2 h3 => exact .cons h1 (le_trans h2 hnm) h3

theorem validRepls_of_sorted {n : Nat} {rs : List Repl}
    (hs : rs.Pairwise (fun a b => b.s ≤ a.s))
    (hd : rs.Pairwise (fun a b => a.e ≤ b.s ∨ b.e ≤ a.s))
    (hb : ∀ r ∈ rs, r.s < r.e ∧ r.e ≤ n) : ValidRepls n rs := by
  induction rs generalizing n with
  | nil => exact .nil n
  | cons r rs ih =>
      rw [List.pairwise_cons] at hs hd
      obtain ⟨hs1, hs2⟩ := hs
      obtain ⟨hd1, hd2⟩ := hd
      obtain ⟨hre, hrn⟩ := hb r (List.mem_cons_self r rs)
      refine .cons (le_of_lt hre) hrn (ih hs2 hd2 ?_)
      intro r' hr'
      obtain ⟨h1', h2'⟩ := hb r' (List.mem_cons_of_mem r hr')
      have hss := hs1 r' hr'
      rcases hd1 r' hr' with h | h
      · omega
      · exact ⟨h1', h⟩

theorem pySplice_length {t : List Char} {r : Repl} (h1 : r.s ≤ t.length) :
    (pySplice t r).length = r.s + r.v.length + (t.length - r.e) := by
  simp only [pySplice, List.length_append, List.length_take, List.length_drop]
  omega

theorem applyRepls_length {rs : List Repl} :
    ∀ {t : List Char}, ValidRepls t.length rs →
      ((applyRepls t rs).length : Int)
        = t.length
            + (rs.map (fun r =>
                (r.v.length : Int) - ((r.e : Int) - (r.s : Int)))).sum := by
  induction rs with
  | nil =>
      intro t _
      simp [applyRepls]
  | cons r rs ih =>
      intro t h
      cases h with
      | cons h1 h2 h3 =>
          have hs : r.s ≤ t.length := le_trans h1 h2
          have hlen : (pySplice t r).length
              = r.s + r.v.length + (t.length - r.e) := pySplice_length hs
          have h3' : ValidRepls (pySplice t r).length rs := by
            refine h3.mono ?_
            rw [hlen]
            omega
          have hstep : applyRepls t (r :: rs) = applyRepls (pySplice t r) rs :=
            rfl
          rw [hstep, ih h3', hlen, List.map_cons, List.sum_cons]
          push_cast
          omega

theorem pySplice_self {t : List Char} {s e : Nat} (hse : s ≤ e) :
    pySplice t ⟨s, e, pySlice t s e⟩ = t := by
  simp only [pySplice, pySlice]
  have h1 : (t.drop s).drop (e - s) = t.drop e := by
    rw [List.drop_drop]
    congr 1
    omega
  calc t.take s ++ (t.drop s).take (e - s) ++ t.drop e
      = t.take s ++ ((t.drop s).take (e - s) ++ (t.drop s).drop (e - s)) := by
        rw [h1, List.append_assoc]
    _ = t.take s ++ t.drop s := by rw [List.take_append_drop]
    _ = t := List.take_append_drop s t

theorem applyRepls_id {t : List Char} {rs : List Repl}
    (h : ∀ r ∈ rs, pySplice t r = t) : applyRepls t rs = t := by
  induction rs with
  | nil => rfl
  | cons r rs ih =>
      have hstep : applyRepls t (r :: rs) = applyRepls (pySplice t r) rs := rfl
      rw [hstep, h r (List.mem_cons_self r rs)]
      exact ih (fun r' hr' => h r' (List.mem_cons_of_mem r hr'))

theorem collectRepls_eq {updates : List FieldUpdate} {fields : List Field}
    (h : ∀ u ∈ updates, (resolveField u.field_name fields).isSome) :
    collectRepls updates fields = .ok (elementaryRepls updates fields) := by
  induction updates with
  | nil => rfl
  | cons u rest ih =>
      obtain ⟨f, hf⟩ :=
        Option.isSome_iff_exists.mp (h u (List.mem_cons_self u rest))
      rw [collectRepls, elementaryRepls, hf,
        ih (fun u' hu' => h u' (List.mem_cons_of_mem u hu'))]
      rfl

theorem applyUpdates_eq {text : List Char} {updates : List FieldUpdate}
    {fields : List Field}
    (h : ∀ u ∈ updates, (resolveField u.field_name fields).isSome) :
    applyUpdates text updates fields
      = .ok (applyRepls text (sortDesc (elementaryRepls updates fields))) := by
  cases updates with
  | nil => rfl
  | cons u rest =>
      rw [applyUpdates]
      simp only [List.isEmpty_cons, Bool.false_eq_true, if_false]
      rw [collectRepls_eq h]
      rfl

theorem mem_elementaryRepls {updates : List FieldUpdate} {fields : List Field}
    {r : Repl} (hr : r ∈ elementaryRepls updates fields) :
    ∃ u ∈ updates, ∃ f, resolveField u.field_name fields = some f ∧
      ∃ p ∈ f.positions, r = ⟨p.1, p.2, u.new_value⟩ := by
  induction updates with
  | nil => simp [elementaryRepls] at hr
  | cons u rest ih =>
      rw [elementaryRepls] at hr
      rcases List.mem_append.mp hr with h1 | h2
      · cases hres : resolveField u.field_name fields with
        | none =>
            rw [hres] at h1
            simp at h1
        | some f =>
            rw [hres] at h1
            obtain ⟨p, hp, hpe⟩ := List.mem_map.mp h1
            exact ⟨u, List.mem_cons_self u rest, f, hres, p, hp, hpe.symm⟩
      · obtain ⟨u', hu', rest'⟩ := ih h2
        exact ⟨u', List.mem_cons_of_mem u hu', rest'⟩

theorem collectRepls_error {updates : List FieldUpdate} {fields : List Field}
    (h : ∃ u ∈ updates, resolveField u.field_name fields = none) :
    ∃ name, collectRepls updates fields = .error (.fieldNotFound name) := by
  induction updates with
  | nil => simp at h
  | cons u rest ih =>
      cases hres : resolveField u.field_name fields with
      | none =>
          refine ⟨u.field_name, ?_⟩
          rw [collectRepls, hres]
      | some f =>
          obtain ⟨u', hu', hn⟩ := h
          rcases List.mem_cons.mp hu' with rfl | hmem
          · rw [hres] at hn
            cases hn
          · obtain ⟨name, hname⟩ := ih ⟨u', hmem, hn⟩
            refine ⟨name, ?_⟩
            rw [collectRepls, hres, hname]
            rfl

theorem applyUpdates_error {text : List Char} {updates : List FieldUpdate}
    {fields : List Field}
    (h : ∃ u ∈ updates, resolveField u.field_name fields = none) :
    ∃ name, applyUpdates text updates fields
      = .error (.fieldNotFound name) := by
  obtain ⟨name, hname⟩ := collectRepls_error h
  refine ⟨name, ?_⟩
  cases updates with
  | nil =>
      obtain ⟨u, hu, _⟩ := h
      simp at hu
  | cons u rest =>
      rw [applyUpdates]
      simp only [List.isEmpty_cons, Bool.false_eq_true, if_false]
      rw [hname]
      rfl

theorem normalizeRef_eq (s : List Char) :
    normalizeRef s
      = (s.map Char.toLower).map
          (fun c => if c = ' ' ∨ c = '-' then '_' else c) := by
  rw [normalizeRef, List.map_map]
  refine List.map_congr_left ?_
  intro c _
  by_cases h1 : c = ' '
  · subst h1
    decide
  · by_cases h2 : c = '-'
    · subst h2
      decide
    · simp [Function.comp, h1, h2]

theorem checkPositions_ok (ps : List (Int × Int)) :
    (checkPositions ps).isOk = true
      ↔ ∀ p ∈ ps, 0 ≤ p.1 ∧ 0 ≤ p.2 ∧ p.1 < p.2 := by
  induction ps with
  | nil => simp [checkPositions, Except.isOk, Except.toBool]
  | cons p rest ih =>
      obtain ⟨s, e⟩ := p
      rw [checkPositions]
      by_cases h1 : s < 0 ∨ e < 0
      · rw [if_pos h1]
        simp only [Except.isOk, Except.toBool]
        constructor
        · intro h
          cases h
        · intro h
          obtain ⟨hs, he, _⟩ := h (s, e) (List.mem_cons_self _ _)
          simp at hs he
          omega
      · rw [if_neg h1]
        by_cases h2 : s ≥ e
        · rw [if_pos h2]
          simp only [Except.isOk, Except.toBool]
          constructor
          · intro h
            cases h
          · intro h
            obtain ⟨hs, he, hlt⟩ := h (s, e) (List.mem_cons_self _ _)
            simp at hs he hlt
            omega
        · rw [if_neg h2, ih]
          constructor
          · intro h q hq
            rcases List.mem_cons.mp hq with rfl | hq'
            · refine ⟨?_, ?_, ?_⟩ <;> simp <;> omega
            · exact h q hq'
          · intro h q hq
            exact h q (List.mem_cons_of_mem _ hq)

theorem validatePositions_isOk (ps : List (Int × Int)) :
    (validatePositions ps).isOk = (checkPositions ps).isOk := by
  rw [validatePositions]
  cases checkPositions ps <;> rfl

theorem validatePosEntry_bounds {docLen : Nat} {pos : Json} {p : Nat × Nat}
    (h : validatePosEntry docLen pos = some p) :
    p.1 < p.2 ∧ p.2 ≤ docLen := by
  unfold validatePosEntry at h
  split at h
  · rename_i a b
    split at h
    · cases h
    · split at h
      · cases h
      · rename_i hbad hbig
        injection h with h
        subst h
        push_neg at hbad
        obtain ⟨ha, hb, hab⟩ := hbad
        simp only [not_lt] at hbig
        constructor <;> omega
  · cases h

theorem createFieldFromDict_positions
    {kvs : List (List Char × Json)} {docLen : Nat} {f : Field}
    (h : createFieldFromDict kvs docLen = .ok f) :
    ∀ p ∈ f.positions, p.1 < p.2 ∧ p.2 ≤ docLen := by
  unfold createFieldFromDict at h
  repeat' split at h
  all_goals cases h
  all_goals
    intro p hp
    obtain ⟨pos, _, hpos⟩ := List.mem_filterMap.mp hp
    exact validatePosEntry_bounds hpos

/-- C1: for every document text and every update batch whose fields all
exist in the field list and whose expanded ranges are pairwise
non-overlapping and lie within `[0, len(text)]`, `apply_updates` succeeds
and returns exactly the cumulative application — sorted by start
descending — of the elementary replacements
`text[:start] + new_value + text[end:]`, one per range of each updated
field, all ranges of a field receiving that field's single new value. -/
theorem apply_updates_is_sorted_cumulative_splice
    (text : List Char) (updates : List FieldUpdate) (fields : List Field)
    (hex : ∀ u ∈ updates, (fieldMapGet fields u.field_name).isSome)
    (hin : ∀ r ∈ elementaryRepls updates fields,
      r.s ≤ r.e ∧ r.e ≤ text.length)
    (hnov : (elementaryRepls updates fields).Pairwise
      (fun a b => a.e ≤ b.s ∨ b.e ≤ a.s)) :
    applyUpdates text updates fields
      = .ok (applyRepls text (sortDesc (elementaryRepls updates fields))) := by
  apply applyUpdates_eq
  intro u hu
  have h := hex u hu
  cases hm : fieldMapGet fields u.field_name with
  | none =>
      rw [hm] at h
      simp at h
  | some f => simp [resolveField, hm]

theorem apply_updates_is_sorted_cumulative_splice_witness :
    applyUpdates exDoc [⟨"f".toList, "YYY".toList⟩] [exField]
      = .ok (applyRepls exDoc
          (sortDesc (elementaryRepls [⟨"f".toList, "YYY".toList⟩] [exField]))) :=
  apply_updates_is_sorted_cumulative_splice _ _ _ (by decide) (by decide)
    (by decide)

/-- C3 counterexample: on the exact scenario of the claim — one
resolvable proposal and one referencing `totally_unknown_field` —
`apply_updates` does not succeed: it raises `FieldUpdateError` instead of
applying the resolvable update and reporting the other as unresolved. -/
theorem unresolved_reference_tolerated_counterexample :
    (applyUpdates scenarioDoc scenarioBatch [scenarioField]).isOk = false := by
  rfl

/-- C3 amended: failure to resolve one reference aborts the whole batch:
on a batch with one resolvable proposal and one referencing
`totally_unknown_field`, `apply_updates` raises
`FieldUpdateError("Field not found: totally_unknown_field")` and the
resolvable update is not applied; nothing is reported as unresolved (the
method has no unresolved-reference output). -/
theorem unresolved_reference_aborts_batch :
    applyUpdates scenarioDoc scenarioBatch [scenarioField]
      = .error (.fieldNotFound "totally_unknown_field".toList) := by
  rfl

/-- C4: an update batch containing a reference that exact and fuzzy
resolution both fail to match results in a field-not-found error; since
`apply_updates` collects all replacements before splicing any and is
pure, no replacement is applied and the caller's document text and field
set are untouched, even when other updates in the batch were
resolvable. -/
theorem unknown_field_aborts_whole_batch
    (text : List Char) (updates : List FieldUpdate) (fields : List Field)
    (h : ∃ u ∈ updates, resolveField u.field_name fields = none) :
    ∃ name, applyUpdates text updates fields
      = .error (.fieldNotFound name) :=
  applyUpdates_error h

theorem unknown_field_aborts_whole_batch_witness :
    ∃ name, applyUpdates scenarioDoc scenarioBatch [scenarioField]
      = .error (.fieldNotFound name) :=
  unknown_field_aborts_whole_batch _ _ _
    ⟨⟨"totally_unknown_field".toList, "X".toList⟩, by decide, by decide⟩

/-- C5: name resolution normalizes the reference by lower-casing it and
replacing spaces and hyphens with underscores, then returns the first
field (in iteration order) whose lower-cased name equals the normalized
reference, and only if none does, the first field related to it by
substring containment in either direction, returning a no-match sentinel
otherwise — stated as equality of `_fuzzy_match_field` with the
resolver transcribed from the specification, together with the concrete
resolution of `"CLIENT NAME"` to a field named `client_name`. -/
theorem name_resolution_matches_spec
    (reference : List Char) (fields : List Field) :
    fuzzyMatchField reference fields = resolveReferenceSpec reference fields
      ∧ fuzzyMatchField "CLIENT NAME".toList
          [⟨"client_name".toList, [(0, 4)], none⟩]
        = some ⟨"client_name".toList, [(0, 4)], none⟩ := by
  constructor
  · simp only [fuzzyMatchField, resolveReferenceSpec, normalizeRef_eq]
  · decide

/-- C10: only the incoming reference is separator-normalized; stored
field names are merely lower-cased.  The reference `"client_name"` finds
no match against a field named `"client name"`, while the reference
`"CLIENT NAME"` does resolve against a field named `"client_name"`. -/
theorem reference_only_separator_normalized :
    fuzzyMatchField "client_name".toList
        [⟨"client name".toList, [(0, 4)], none⟩] = none
      ∧ fuzzyMatchField "CLIENT NAME".toList
          [⟨"client_name".toList, [(0, 4)], none⟩]
        = some ⟨"client_name".toList, [(0, 4)], none⟩ := by
  decide

/-- C6 counterexample: ingestion does not reject a field set whose ranges
exceed the document length or whose ranges overlap across fields.  Both
fields of the set `[[(0, 100)], [(0, 100)]]` validate although the
document `"0123456789"` is 10 characters long (so `100 > len(text)`) and
the two fields' ranges coincide (so they overlap). -/
theorem ingestion_accepts_overlap_counterexample :
    templateFieldsAccepted [[(0, 100)], [(0, 100)]] = true
      ∧ "0123456789".toList.length = 10
      ∧ ¬ ((100 : Int) ≤ 0 ∨ (100 : Int) ≤ 0)
      ∧ (100 : Int) > 10 := by
  refine ⟨by decide, by decide, by decide, by decide⟩

/-- C6 amended: ingestion validation checks each range of each field
only for non-negative indices and `start < end`; it never consults the
document length and never compares ranges of different fields, so a field
set is accepted exactly when every range satisfies
`0 ≤ start`, `0 ≤ end` and `start < end`. -/
theorem ingestion_validates_only_per_range
    (pss : List (List (Int × Int))) :
    templateFieldsAccepted pss = true
      ↔ ∀ ps ∈ pss, ∀ p ∈ ps, 0 ≤ p.1 ∧ 0 ≤ p.2 ∧ p.1 < p.2 := by
  rw [templateFieldsAccepted, List.all_eq_true]
  constructor
  · intro h ps hps
    have := h ps hps
    rw [validatePositions_isOk, checkPositions_ok] at this
    exact this
  · intro h ps hps
    rw [validatePositions_isOk, checkPositions_ok]
    exact h ps hps

theorem ingestion_validates_only_per_range_witness :
    templateFieldsAccepted [[(1, 3)], [(0, 7)]] = true :=
  (ingestion_validates_only_per_range _).mpr (by decide)

/-- C7 counterexample: a single field with two equal-old-length ranges,
both holding the field's current value `"XX"`, updated to `"YYY"`: the
result is 16 characters long, but the claimed per-field summation
(applicable because all ranges of the field have equal old length)
predicts `14 + (3 - 2) = 15`. -/
theorem per_field_length_sum_counterexample :
    (applyUpdates exDoc [⟨"f".toList, "YYY".toList⟩] [exField]).map
        List.length = .ok 16
      ∧ exDoc.length = 14
      ∧ pySlice exDoc 3 5 = "XX".toList
      ∧ pySlice exDoc 9 11 = "XX".toList
      ∧ exDoc.length + ("YYY".toList.length - "XX".toList.length) = 15
      ∧ (16 : Nat) ≠ 15 := by
  refine ⟨by rfl, by decide, by decide, by decide, by decide, by decide⟩

/-- C7 amended: for every resolvable update batch whose expanded ranges
are valid, in bounds and pairwise non-overlapping, the length of the
returned text equals the original length plus the sum, over every range
actually replaced, of `len(new_value) - (end - start)`; the per-field
single summation of the original claim undercounts multi-range
fields. -/
theorem length_change_per_range
    (text : List Char) (updates : List FieldUpdate) (fields : List Field)
    (hres : ∀ u ∈ updates, (resolveField u.field_name fields).isSome)
    (hin : ∀ r ∈ elementaryRepls updates fields,
      r.s < r.e ∧ r.e ≤ text.length)
    (hnov : (elementaryRepls updates fields).Pairwise
      (fun a b => a.e ≤ b.s ∨ b.e ≤ a.s)) :
    ∃ t, applyUpdates text updates fields = .ok t ∧
      (t.length : Int) = text.length
        + ((elementaryRepls updates fields).map
            (fun r => (r.v.length : Int) - ((r.e : Int) - (r.s : Int)))).sum := by
  refine ⟨_, applyUpdates_eq hres, ?_⟩
  have hperm := sortDesc_perm (elementaryRepls updates fields)
  have hsorted := sortDesc_sorted (elementaryRepls updates fields)
  have hd : (sortDesc (elementaryRepls updates fields)).Pairwise
      (fun a b => a.e ≤ b.s ∨ b.e ≤ a.s) :=
    (hperm.pairwise_iff (fun h => h.symm)).mpr hnov
  have hb : ∀ r ∈ sortDesc (elementaryRepls updates fields),
      r.s < r.e ∧ r.e ≤ text.length :=
    fun r hr => hin r (hperm.mem_iff.mp hr)
  have hv := validRepls_of_sorted hsorted hd hb
  rw [applyRepls_length hv]
  congr 1
  exact (hperm.map _).sum_eq

theorem length_change_per_range_witness :
    ∃ t, applyUpdates exDoc [⟨"f".toList, "YYY".toList⟩] [exField]
        = .ok t ∧
      (t.length : Int) = exDoc.length
        + ((elementaryRepls [⟨"f".toList, "YYY".toList⟩] [exField]).map
            (fun r => (r.v.length : Int) - ((r.e : Int) - (r.s : Int)))).sum :=
  length_change_per_range _ _ _ (by decide) (by decide) (by decide)

/-- C2 (settled against `applyUpdatesFull`, modelled from the spec): when
every update resolves, the pipeline returns the spliced text together
with the field list in which every updated field's ranges are recomputed
— each old range `(start, end)` becomes
`(start, start + len(new_value))`, so a field with N ranges updated once
ends with N ranges each of length `len(new_value)` — while fields not
resolved from the batch keep their old ranges verbatim. -/
theorem apply_updates_recomputes_updated_ranges
    (text : List Char) (updates : List FieldUpdate) (fields : List Field)
    (hres : ∀ u ∈ updates, (resolveField u.field_name fields).isSome) :
    ∃ t, applyUpdatesFull text updates fields
        = .ok (t, fields.map (recomputeField updates fields))
      ∧ ∀ f ∈ fields,
          (∀ u, updates.reverse.find?
                (fun u' => decide (resolveField u'.field_name fields = some f))
              = some u →
            (recomputeField updates fields f).positions
                = f.positions.map (fun p => (p.1, p.1 + u.new_value.length))
              ∧ (recomputeField updates fields f).current_value
                = some u.new_value)
          ∧ (updates.reverse.find?
                (fun u' => decide (resolveField u'.field_name fields = some f))
              = none →
            recomputeField updates fields f = f) := by
  refine ⟨applyRepls text (sortDesc (elementaryRepls updates fields)), ?_, ?_⟩
  · rw [applyUpdatesFull, applyUpdates_eq hres]
    rfl
  · intro f _
    constructor
    · intro u hu
      rw [recomputeField, hu]
      exact ⟨rfl, rfl⟩
    · intro hnone
      rw [recomputeField, hnone]

theorem apply_updates_recomputes_updated_ranges_witness :
    (∃ t, applyUpdatesFull exDoc [⟨"f".toList, "YYY".toList⟩] [exField]
        = .ok (t, [exField].map
            (recomputeField [⟨"f".toList, "YYY".toList⟩] [exField])))
      ∧ (recomputeField [⟨"f".toList, "YYY".toList⟩] [exField]
          exField).positions = [(3, 6), (9, 12)] := by
  refine ⟨?_, by decide⟩
  obtain ⟨t, ht, _⟩ := apply_updates_recomputes_updated_ranges exDoc
    [⟨"f".toList, "YYY".toList⟩] [exField] (by decide)
  exact ⟨t, ht⟩

/-- C8: an update batch that sets every targeted field to its current
value — each targeted field's ranges valid, in bounds, pairwise
non-overlapping, and each holding the field's current value in the
document — is a no-op: the returned text equals the input, the
recomputed field set equals the input field set, and likewise the empty
batch returns the document and field set unchanged. -/
theorem identity_update_batch_noop
    (text : List Char) (updates : List FieldUpdate) (fields : List Field)
    (h : ∀ u ∈ updates, ∃ f v,
      resolveField u.field_name fields = some f ∧
      f.current_value = some v ∧ u.new_value = v ∧
      ∀ p ∈ f.positions, p.1 < p.2 ∧ p.2 ≤ text.length ∧
        pySlice text p.1 p.2 = v)
    (hnov : (elementaryRepls updates fields).Pairwise
      (fun a b => a.e ≤ b.s ∨ b.e ≤ a.s)) :
    applyUpdates text updates fields = .ok text
      ∧ applyUpdatesFull text updates fields = .ok (text, fields)
      ∧ applyUpdates text [] fields = .ok text
      ∧ applyUpdatesFull text [] fields = .ok (text, fields) := by
  have hres : ∀ u ∈ updates, (resolveField u.field_name fields).isSome := by
    intro u hu
    obtain ⟨f, v, hf, _⟩ := h u hu
    rw [hf]
    rfl
  have htext : applyRepls text (sortDesc (elementaryRepls updates fields))
      = text := by
    apply applyRepls_id
    intro r hr
    obtain ⟨u, hu, f, hresf, p, hp, rfl⟩ :=
      mem_elementaryRepls (mem_sortDesc.mp hr)
    obtain ⟨f', v, hresf', hcv, hnv, hpos⟩ := h u hu
    rw [hresf] at hresf'
    injection hresf' with hresf'
    subst hresf'
    obtain ⟨hlt, _, hslice⟩ := hpos p hp
    rw [hnv, ← hslice]
    exact pySplice_self (le_of_lt hlt)
  have h1 : applyUpdates text updates fields = .ok text := by
    rw [applyUpdates_eq hres, htext]
  have hfields : fields.map (recomputeField updates fields) = fields := by
    have hid : ∀ f ∈ fields, recomputeField updates fields f = f := by
      intro f _
      cases hfind : updates.reverse.find?
          (fun u' => decide (resolveField u'.field_name fields = some f)) with
      | none => rw [recomputeField, hfind]
      | some u =>
          have hdec := List.find?_some hfind
          have hpu : resolveField u.field_name fields = some f :=
            of_decide_eq_true hdec
          have humem : u ∈ updates :=
            List.mem_reverse.mp (List.mem_of_find?_eq_some hfind)
          obtain ⟨f', v, hresf', hcv, hnv, hpos⟩ := h u humem
          rw [hpu] at hresf'
          injection hresf' with hresf'
          subst hresf'
          rw [recomputeField, hfind]
          have hposid : f.positions.map
              (fun p => (p.1, p.1 + u.new_value.length)) = f.positions := by
            have : ∀ p ∈ f.positions,
                (p.1, p.1 + u.new_value.length) = p := by
              intro p hp
              obtain ⟨hlt, hle, hslice⟩ := hpos p hp
              have hlen := congrArg List.length hslice
              simp only [pySlice, List.length_take, List.length_drop] at hlen
              obtain ⟨p1, p2⟩ := p
              simp only at hlt hle hlen ⊢
              rw [hnv]
              have : p1 + v.length = p2 := by omega
              rw [this]
            rw [List.map_congr_left this, List.map_id']
          obtain ⟨nm, pos, cv⟩ := f
          simp only at hposid hcv
          dsimp only
          rw [hposid, hcv, hnv]
    rw [List.map_congr_left hid, List.map_id']
  refine ⟨h1, ?_, rfl, ?_⟩
  · rw [applyUpdatesFull, h1]
    show Except.ok _ = _
    rw [hfields]
  · rw [applyUpdatesFull]
    show Except.ok _ = _
    have hid0 : ∀ f ∈ fields, recomputeField [] fields f = f := fun f _ => rfl
    rw [List.map_congr_left hid0, List.map_id']

theorem identity_update_batch_noop_witness :
    applyUpdates exDoc [⟨"f".toList, "XX".toList⟩] [exField] = .ok exDoc
      ∧ applyUpdatesFull exDoc [⟨"f".toList, "XX".toList⟩] [exField]
        = .ok (exDoc, [exField])
      ∧ applyUpdates exDoc [] [exField] = .ok exDoc
      ∧ applyUpdatesFull exDoc [] [exField] = .ok (exDoc, [exField]) :=
  identity_update_batch_noop exDoc [⟨"f".toList, "XX".toList⟩] [exField]
    (by
      intro u hu
      rcases List.mem_cons.mp hu with rfl | h0
      · exact ⟨exField, "XX".toList, by decide, by decide, by decide,
          by decide⟩
      · cases h0)
    (by decide)

/-- C9: detection-response parsing raises exactly when the response is
not a JSON array, and every field of a successfully parsed response
carries only positions that are integer pairs satisfying
`0 ≤ start < end ≤ len(document_text)` (the lower bound is carried by the
`Nat` representation, produced only for validated non-negative indices);
invalid entries are dropped rather than failing the parse. -/
theorem detection_parse_validates (v : Json) (docLen : Nat) :
    ((parseLlmFields v docLen).isOk = v.isArr)
      ∧ ∀ fs, parseLlmFields v docLen = .ok fs →
          ∀ f ∈ fs, ∀ p ∈ f.positions, p.1 < p.2 ∧ p.2 ≤ docLen := by
  constructor
  · cases v <;> rfl
  · intro fs hfs f hf p hp
    cases v with
    | arr items =>
        rw [parseLlmFields] at hfs
        injection hfs with hfs
        subst hfs
        obtain ⟨item, hmemitem, hitem⟩ := List.mem_filterMap.mp hf
        cases item <;> try cases hitem
        rename_i kvs
        dsimp only at hitem
        have hok : createFieldFromDict kvs docLen = .ok f := by
          cases hc : createFieldFromDict kvs docLen with
          | ok g =>
              rw [hc] at hitem
              injection hitem with hitem
              rw [hitem]
          | error e =>
              rw [hc] at hitem
              cases hitem
        exact createFieldFromDict_positions hok p hp
    | null => cases hfs
    | bool b => cases hfs
    | num n => cases hfs
    | fnum => cases hfs
    | str s => cases hfs
    | obj kvs => cases hfs

theorem detection_parse_validates_witness :
    (parseLlmFields exDetection 20).isOk = true
      ∧ ((3 : Nat) < 7 ∧ (7 : Nat) ≤ 20) := by
  constructor
  · rw [(detection_parse_validates exDetection 20).1]
    rfl
  · exact (detection_parse_validates exDetection 20).2 exParsed (by rfl)
      ⟨"client_name".toList, [(3, 7)], some "John".toList⟩ (by decide)
      (3, 7) (by decide)

end SpotEdit
